import Mathlib

/-!
Verification of the ciphertext-arithmetic and key-material layer of the
phantom-zone Boolean FHE engine (files `src/rgsw.rs` and `src/bool/keys.rs`).

Ring elements of R_q are modelled as coefficient functions `Nat → Nat`
(values taken modulo `q`); matrices are lists of such rows.  The external
collaborators of the core (spec section 6) are modelled as parameters:

* the modular backend `mod_op` is concrete arithmetic modulo `q`
  (element-wise add / fused multiply-add / negation, as the spec states);
* the NTT backend is a pair of abstract row maps `fwd` / `bwd`;
* the gadget decomposer is an abstract digit function `dec : Nat → List Nat`
  together with its count `d`;
* the seeded CSPRNG is an abstract state machine
  `fill : σ → Nat → Nat → Poly × σ` (state, modulus, length ↦ row, state)
  with `newWithSeed : S → σ`.

Assertions in the source are modelled with `Option` results where a claim
depends on them.  Scratch matrices whose every cell is overwritten before
being read are elided; the scratch of `galois_auto` (whose stale cells can
survive into the output) is kept as an explicit argument.
-/

namespace PZ

/-- A ring element (one matrix row): coefficient `i` of the polynomial. -/
abbrev Poly := Nat → Nat

/-- The all-zero row (`M::zeros` row). -/
def zPoly : Poly := fun _ => 0

/-- `ArithmeticOps::neg`: modular negation. -/
def negMod (q x : Nat) : Nat := (q - x % q) % q

/-- `VectorOps::elwise_add_mut`: element-wise addition mod `q`. -/
def elwiseAdd (q : Nat) (a b : Poly) : Poly := fun i => (a i + b i) % q

/-- `VectorOps::elwise_fma_mut`: element-wise fused multiply-add mod `q`. -/
def elwiseFma (q : Nat) (acc a b : Poly) : Poly := fun i => (acc i + a i * b i) % q

/-- `rgsw.rs::routine`: accumulate `Σ_j a_j ⊙ b_j` into `write_to_row`,
element-wise mod `q`, one fused multiply-add per row pair. -/
def routine (q : Nat) (writeToRow : Poly) (matrixA matrixB : List Poly) : Poly :=
  (matrixA.zip matrixB).foldl (fun w p => elwiseFma q w p.1 p.2) writeToRow

/-- `rgsw.rs::decompose_r`: row `j` of the output holds digit `j` of every
coefficient of `r`. -/
def decompose_r (d : Nat) (dec : Nat → List Nat) (r : Poly) : List Poly :=
  (List.range d).map (fun j => fun i => (dec (r i)).getD j 0)

/-- An RLWE ciphertext: rows `a` and `b` plus the `is_trivial` flag
(`rgsw.rs::RlweCiphertext`). -/
structure RlweCt where
  a : Poly
  b : Poly
  is_trivial : Bool

/-- `rgsw.rs::rlwe_by_rgsw`: external product RLWE(m0) × RGSW(m1), the
rewritten ciphertext.  `rgsw` is the 4d-row evaluation-domain RGSW matrix;
the (d+2)×N scratch matrix of the source is fully overwritten before use and
is therefore elided. -/
def rlwe_by_rgsw (q d : Nat) (dec : Nat → List Nat) (fwd bwd : Poly → Poly)
    (rgsw : List Poly) (ct : RlweCt) : RlweCt :=
  let rlwe_dash_nsm := rgsw.take (2 * d)
  let rlwe_dash_m := rgsw.drop (2 * d)
  let start := (zPoly, zPoly)
  let afterA :=
    if ct.is_trivial then start
    else
      let da := (decompose_r d dec ct.a).map fwd
      (routine q start.1 da (rlwe_dash_nsm.take d),
       routine q start.2 da (rlwe_dash_nsm.drop d))
  let db := (decompose_r d dec ct.b).map fwd
  let o0 := routine q afterA.1 db (rlwe_dash_m.take d)
  let o1 := routine q afterA.2 db (rlwe_dash_m.drop d)
  ⟨bwd o0, bwd o1, false⟩

/-- `rgsw.rs::less1_rlwe_by_rgsw`: external product variant that skips the
first `skip0` digits of the −sm product and the first `skip1` digits of the
m product. -/
def less1_rlwe_by_rgsw (q d : Nat) (dec : Nat → List Nat) (fwd bwd : Poly → Poly)
    (rgsw : List Poly) (skip0 skip1 : Nat) (ct : RlweCt) : RlweCt :=
  let rlwe_dash_nsm := rgsw.take (2 * d)
  let rlwe_dash_m := rgsw.drop (2 * d)
  let start := (zPoly, zPoly)
  let afterA :=
    if ct.is_trivial then start
    else
      let da := (decompose_r d dec ct.a).map fwd
      (routine q start.1 (da.drop skip0) ((rlwe_dash_nsm.take d).drop skip0),
       routine q start.2 (da.drop skip0) (rlwe_dash_nsm.drop (d + skip0)))
  let db := (decompose_r d dec ct.b).map fwd
  let o0 := routine q afterA.1 (db.drop skip1) ((rlwe_dash_m.take d).drop skip1)
  let o1 := routine q afterA.2 (db.drop skip1) (rlwe_dash_m.drop (d + skip1))
  ⟨bwd o0, bwd o1, false⟩

/-- `rgsw.rs::galois_auto`: automorphism X ↦ X^k followed by a key switch.
`scratch` is the caller's (d+2)×N scratch matrix: rows `0..d` seed the
decomposition rows, row `d+1` seeds the permuted-b row (cells not written by
the permutation keep their stale scratch values, as in the source). -/
def galois_auto (q d ringSize : Nat) (dec : Nat → List Nat) (fwd bwd : Poly → Poly)
    (ksk : List Poly) (scratch : List Poly) (autoMapIndex : Nat → Nat)
    (autoMapSign : Nat → Bool) (ct : RlweCt) : RlweCt :=
  let tmpB := (List.range ringSize).foldl
    (fun f i =>
      Function.update f (autoMapIndex i)
        (if autoMapSign i then ct.b i else negMod q (ct.b i)))
    (scratch.getD (d + 1) zPoly)
  if ct.is_trivial then
    ⟨ct.a, tmpB, ct.is_trivial⟩
  else
    let decompRows := (List.range ringSize).foldl
      (fun (rows : List Poly) i =>
        let elOut := if autoMapSign i then ct.a i else negMod q (ct.a i)
        (List.range d).map (fun j =>
          Function.update (rows.getD j zPoly) (autoMapIndex i) ((dec elOut).getD j 0)))
      (scratch.take d)
    let decompRowsEval := decompRows.map fwd
    let kskA := ksk.take d
    let kskB := ksk.drop d
    let aOut := routine q zPoly decompRowsEval kskA
    let bOut := routine q (fwd tmpB) decompRowsEval kskB
    ⟨bwd aOut, bwd bOut, ct.is_trivial⟩

/-- Body of the per-row-pair loop of `rgsw.rs::rgsw_by_rgsw_inplace`: one
external product of the RLWE ciphertext `(pa, pb)` against `rgsw1`, before
the final inverse NTT. -/
def extProdPair (q d : Nat) (dec : Nat → List Nat) (fwd : Poly → Poly)
    (rgsw1 : List Poly) (pa pb : Poly) : Poly × Poly :=
  let rgsw1_nsm := rgsw1.take (2 * d)
  let rgsw1_m := rgsw1.drop (2 * d)
  let da := (decompose_r d dec pa).map fwd
  let oA := routine q zPoly da (rgsw1_nsm.take d)
  let oB := routine q zPoly da (rgsw1_nsm.drop d)
  let db := (decompose_r d dec pb).map fwd
  let oA2 := routine q oA db (rgsw1_m.take d)
  let oB2 := routine q oB db (rgsw1_m.drop d)
  (oA2, oB2)

/-- `rgsw.rs::rgsw_by_rgsw_inplace`: internal product RGSW(m0) × RGSW(m1);
`none` models the dimension assertions failing. -/
def rgsw_by_rgsw_inplace (q d : Nat) (dec : Nat → List Nat) (fwd bwd : Poly → Poly)
    (rgsw0 rgsw1 : List Poly) : Option (List Poly) :=
  if rgsw0.length = 4 * d ∧ rgsw1.length = 4 * d then
    let rgsw0_nsm := rgsw0.take (2 * d)
    let rgsw0_m := rgsw0.drop (2 * d)
    let rowsA := rgsw0_nsm.take d ++ rgsw0_m.take d
    let rowsB := rgsw0_nsm.drop d ++ rgsw0_m.drop d
    let prods := (rowsA.zip rowsB).map (fun p => extProdPair q d dec fwd rgsw1 p.1 p.2)
    some ((((prods.take d).map Prod.fst) ++ ((prods.take d).map Prod.snd)
        ++ ((prods.drop d).map Prod.fst) ++ ((prods.drop d).map Prod.snd)).map bwd)
  else none

/-- `rgsw.rs::generate_auto_map`: permutation and sign tables for X ↦ X^k;
`none` models the odd-`k` assertion failing. -/
def generate_auto_map (ringSize : Nat) (k : Int) : Option (List Nat × List Bool) :=
  if k % 2 = 1 then
    let kp : Nat :=
      if k < 0 then 2 * ringSize - k.natAbs % (2 * ringSize) else k.toNat
    let pairs := (List.range ringSize).map (fun i =>
      let toIndex := i * kp % (2 * ringSize)
      if ringSize ≤ toIndex then (toIndex - ringSize, false) else (toIndex, true))
    some pairs.unzip
  else none

/-- The spec formula for the external product (claim C1): inverse NTT of the
gadget accumulation sums, element-wise mod `q`. -/
def rlweByRgswSpec (q d : Nat) (dec : Nat → List Nat) (fwd bwd : Poly → Poly)
    (rgsw : List Poly) (ct : RlweCt) : RlweCt :=
  let da := (decompose_r d dec ct.a).map fwd
  let db := (decompose_r d dec ct.b).map fwd
  let dot := fun (rows : List Poly) (off : Nat) (i : Nat) =>
    ((List.range d).map (fun j => rows.getD j zPoly i * rgsw.getD (off + j) zPoly i)).sum
  ⟨bwd (fun i => ((if ct.is_trivial then 0 else dot da 0 i) + dot db (2 * d) i) % q),
   bwd (fun i => ((if ct.is_trivial then 0 else dot da d i) + dot db (3 * d) i) % q),
   false⟩

/-- `bool/keys.rs::BoolParameters`: the parameter fields the key layer reads. -/
structure BoolParameters where
  rlwe_n : Nat
  lwe_n : Nat
  rlwe_q : Nat
  lwe_q : Nat
  g : Nat
  auto_decomposition_count : Nat
  rlwe_rgsw_decomposition_count : Nat × Nat
  lwe_decomposition_count : Nat
  auto_element_dlogs : List Nat
deriving DecidableEq

/-- `bool/keys.rs::CommonReferenceSeededCollectivePublicKeyShare`. -/
structure CommonReferenceSeededCollectivePublicKeyShare (S : Type) where
  share : Poly
  cr_seed : S
  parameters : BoolParameters

/-- `From<&[CommonReferenceSeededCollectivePublicKeyShare]> for PublicKey`
(bool/keys.rs lines 201-236).  `crsA seed q` models drawing the uniform row
`a` from a CSPRNG seeded with `seed` under modulus `q`; `none` models a
failing assertion (empty slice, or a share disagreeing with the first share
on CRS seed or parameters). -/
def publicKeyFromShares {S : Type} [DecidableEq S] (crsA : S → Nat → Poly)
    (value : List (CommonReferenceSeededCollectivePublicKeyShare S)) :
    Option (Poly × Poly) :=
  match value with
  | [] => none
  | s0 :: _ =>
    let q := s0.parameters.rlwe_q
    if value.all (fun si =>
        decide (si.cr_seed = s0.cr_seed) && decide (si.parameters = s0.parameters)) then
      some (crsA s0.cr_seed q,
        value.foldl (fun acc si => elwiseAdd q acc si.share) zPoly)
    else none

/-- `From<&[CommonReferenceSeededCollectivePublicKeyShare]> for SeededPublicKey`
(bool/keys.rs lines 259-288): sums part-b over the shares (starting from the
first share's b) and keeps the CRS seed and parameters. -/
def seededPublicKeyFromShares {S : Type} [DecidableEq S]
    (value : List (CommonReferenceSeededCollectivePublicKeyShare S)) :
    Option (Poly × S × BoolParameters) :=
  match value with
  | [] => none
  | s0 :: rest =>
    let q := s0.parameters.rlwe_q
    if rest.all (fun si =>
        decide (si.cr_seed = s0.cr_seed) && decide (si.parameters = s0.parameters)) then
      some (rest.foldl (fun acc si => elwiseAdd q acc si.share) s0.share,
        s0.cr_seed, s0.parameters)
    else none

/-- Draw `count` successive rows of length `len` under modulus `q` from the
CSPRNG state `st` (successive `random_fill` calls on one generator). -/
def fillRows {σ : Type} (fill : σ → Nat → Nat → Poly × σ) (q len : Nat) :
    Nat → σ → List Poly × σ
  | 0, st => ([], st)
  | count + 1, st =>
    let r := fill st q len
    let rest := fillRows fill q len count r.2
    (r.1 :: rest.1, rest.2)

/-- `rgsw.rs::SeededRgswCiphertext`: the 3d stored rows, with the ring size
(row length) kept explicitly. -/
structure SeededRgswCiphertext (S : Type) where
  data : List Poly
  ringSize : Nat
  seed : S
  modulus : Nat

/-- `From<&SeededRgswCiphertext> for RgswCiphertextEvaluationDomain`
(rgsw.rs lines 159-198): copy RLWE'(-sm), draw the d missing a-rows of
RLWE'(m) from the seed, copy RLWE'_B(m), forward-NTT every row. -/
def expandSeededRgswCiphertext {S σ : Type} (newWithSeed : S → σ)
    (fill : σ → Nat → Nat → Poly × σ) (fwd : Poly → Poly)
    (value : SeededRgswCiphertext S) : List Poly :=
  let d := value.data.length / 3
  let arows := (fillRows fill value.modulus value.ringSize d (newWithSeed value.seed)).1
  (value.data.take (2 * d) ++ arows ++ value.data.drop (2 * d)).map fwd

/-- `rgsw.rs::SeededAutoKey`: the d stored b-rows. -/
structure SeededAutoKey (S : Type) where
  data : List Poly
  ringSize : Nat
  seed : S
  modulus : Nat

/-- `From<&SeededAutoKey> for AutoKeyEvaluationDomain` (rgsw.rs lines 64-88):
draw the d a-rows from the seed, copy the stored b-rows, forward-NTT. -/
def expandSeededAutoKey {S σ : Type} (newWithSeed : S → σ)
    (fill : σ → Nat → Nat → Poly × σ) (fwd : Poly → Poly)
    (value : SeededAutoKey S) : List Poly :=
  let d := value.data.length
  let arows := (fillRows fill value.modulus value.ringSize d (newWithSeed value.seed)).1
  (arows ++ value.data).map fwd

/-- `rgsw.rs::SeededRlweCiphertext`: the stored b-row. -/
structure SeededRlweCiphertext (S : Type) where
  data : Poly
  ringSize : Nat
  seed : S
  modulus : Nat

/-- `From<&SeededRlweCiphertext> for RlweCiphertext` (rgsw.rs lines 347-361):
draw `a` from the seed, copy `b`, mark non-trivial. -/
def expandSeededRlweCiphertext {S σ : Type} (newWithSeed : S → σ)
    (fill : σ → Nat → Nat → Poly × σ) (value : SeededRlweCiphertext S) : RlweCt :=
  ⟨(fill (newWithSeed value.seed) value.modulus value.ringSize).1, value.data, false⟩

/-- `bool/keys.rs::SeededSinglePartyServerKey`; the auto-key HashMap is
modelled as an association list keyed by the dlog index. -/
structure SeededSinglePartyServerKey (S : Type) where
  rgsw_cts : List (List Poly)
  auto_keys : List (Nat × List Poly)
  lwe_ksk : List Nat
  parameters : BoolParameters
  seed : S

/-- `bool/keys.rs::ServerKeyEvaluationDomain`. -/
structure ServerKeyEvaluationDomain where
  rgsw_cts : List (List Poly)
  galois_keys : List (Nat × List Poly)
  lwe_ksk : List Poly

/-- Auto-key block of the single-party expansion (bool/keys.rs lines
499-525): per dlog index, look the stored b-rows up, draw the a-rows from
the main CSPRNG, forward-NTT; `none` models a missing key (`unwrap`) or the
dimension assertion failing. -/
def expandAutoKeys {σ : Type} (fill : σ → Nat → Nat → Poly × σ) (fwd : Poly → Poly)
    (q n dcount : Nat) (table : List (Nat × List Poly)) :
    List Nat → σ → Option (List (Nat × List Poly) × σ)
  | [], st => some ([], st)
  | i :: rest, st =>
    match table.lookup i with
    | none => none
    | some seededKey =>
      if seededKey.length = dcount then
        let arows := fillRows fill q n dcount st
        let key := (arows.1 ++ seededKey).map fwd
        match expandAutoKeys fill fwd q n dcount table rest arows.2 with
        | none => none
        | some tl => some ((i, key) :: tl.1, tl.2)
      else none

/-- RGSW block of the single-party expansion (bool/keys.rs lines 528-573):
per seeded ciphertext, copy RLWE'(-sm), draw the missing RLWE'_A(m) rows,
copy RLWE'_B(m), forward-NTT; `none` models the dimension assertion
failing. -/
def expandRgswCts {σ : Type} (fill : σ → Nat → Nat → Poly × σ) (fwd : Poly → Poly)
    (q n da db : Nat) : List (List Poly) → σ → Option (List (List Poly) × σ)
  | [], st => some ([], st)
  | ct :: rest, st =>
    if ct.length = da * 2 + db then
      let arows := fillRows fill q n db st
      let out := (ct.take (da * 2) ++ arows.1 ++ ct.drop (da * 2)).map fwd
      match expandRgswCts fill fwd q n da db rest arows.2 with
      | none => none
      | some tl => some (out :: tl.1, tl.2)
    else none

/-- LWE-KSK block of the single-party expansion (bool/keys.rs lines
576-593): one output row per stored b-element; the fresh a-values fill
columns `1..`, the stored b-element lands in column 0. -/
def expandLweKsk {σ : Type} (fill : σ → Nat → Nat → Poly × σ) (q n : Nat) :
    List Nat → σ → List Poly × σ
  | [], st => ([], st)
  | bi :: rest, st =>
    let arow := fill st q n
    let row : Poly := fun c => if c = 0 then bi else arow.1 (c - 1)
    let tl := expandLweKsk fill q n rest arow.2
    (row :: tl.1, tl.2)

/-- `From<&SeededSinglePartyServerKey> for ServerKeyEvaluationDomain`
(bool/keys.rs lines 485-603): one CSPRNG seeded with the main seed is
threaded through the auto keys, then the RGSW ciphertexts, then the
LWE-KSK; `none` models a failing assertion or `unwrap`. -/
def expandSeededSinglePartyServerKey {S σ : Type} (newWithSeed : S → σ)
    (fill : σ → Nat → Nat → Poly × σ) (fwd : Poly → Poly)
    (value : SeededSinglePartyServerKey S) : Option ServerKeyEvaluationDomain :=
  let p := value.parameters
  match expandAutoKeys fill fwd p.rlwe_q p.rlwe_n p.auto_decomposition_count
      value.auto_keys p.auto_element_dlogs (newWithSeed value.seed) with
  | none => none
  | some autos =>
    match expandRgswCts fill fwd p.rlwe_q p.rlwe_n
        p.rlwe_rgsw_decomposition_count.1 p.rlwe_rgsw_decomposition_count.2
        value.rgsw_cts autos.2 with
    | none => none
    | some rgsws =>
      if value.lwe_ksk.length = p.lwe_decomposition_count * p.rlwe_n then
        some ⟨rgsws.1, autos.1,
          (expandLweKsk fill p.lwe_q p.lwe_n value.lwe_ksk rgsws.2).1⟩
      else none

/-- User loop of the ui→s KSK block of the non-interactive expansion
(bool/keys.rs lines 851-882).  Per user index: seed a fresh CSPRNG from the
user subseed, draw the `d` part-A rows into a `2d`-row matrix, locate the
user's part-B share through `keyOrder`, assert the matrix dimension, copy
part B, forward-NTT.  `none` models a panic (out-of-bounds share lookup, or
the dimension assertion - which compares the `2d`-row matrix against `d`
rows - failing). -/
def uiToSKskLoop {S σ : Type} (newWithSeed : S → σ)
    (fill : σ → Nat → Nat → Poly × σ) (fwd : Poly → Poly) (uiSeed : Nat → S)
    (q n d : Nat) (ksks : List (List Poly)) (keyOrder : List Nat) :
    List Nat → Option (List (List Poly))
  | [] => some []
  | userIndex :: rest =>
    let st := newWithSeed (uiSeed userIndex)
    let arows := (fillRows fill q n d st).1
    if keyOrder.getD userIndex 0 < ksks.length then
      let partB := ksks.getD (keyOrder.getD userIndex 0) []
      if 2 * d = d then
        let copied := partB.take d
        let kskCt := (arows ++ copied ++ List.replicate (d - copied.length) zPoly).map fwd
        match uiToSKskLoop newWithSeed fill fwd uiSeed q n d ksks keyOrder rest with
        | none => none
        | some tl => some (kskCt :: tl)
      else none
    else none

/-- ui→s KSK block of
`From<SeededNonInteractiveMultiPartyServerKey> for
NonInteractiveServerKeyEvaluationDomain` (bool/keys.rs lines 845-882):
`total_users` is the maximum entry of `ui_to_s_ksks_key_order` (`unwrap`
panics on an empty order, modelled by `none`), and users `0..total_users`
are expanded by `uiToSKskLoop`. -/
def expandUiToSKsks {S σ : Type} (newWithSeed : S → σ)
    (fill : σ → Nat → Nat → Poly × σ) (fwd : Poly → Poly) (uiSeed : Nat → S)
    (q n d : Nat) (ksks : List (List Poly)) (keyOrder : List Nat) :
    Option (List (List Poly)) :=
  match keyOrder.max? with
  | none => none
  | some totalUsers =>
    uiToSKskLoop newWithSeed fill fwd uiSeed q n d ksks keyOrder
      (List.range totalUsers)

/-- The spec description of the internal product (claim C2): the 2d row
pairs of `rgsw0` - pair `i` of the −sm block is its a-row `i` together with
its b-row `d+i`, pair `d+i` likewise for the m block - each viewed as a
non-trivial RLWE ciphertext and externally multiplied by `rgsw1` through
`rlwe_by_rgsw`; the resulting 4d rows (already inverse-NTT'd by the external
product) replace `rgsw0`. -/
def rgswByExternalProducts (q d : Nat) (dec : Nat → List Nat)
    (fwd bwd : Poly → Poly) (rgsw0 rgsw1 : List Poly) : List Poly :=
  let aRow := fun k =>
    if k < d then rgsw0.getD k zPoly else rgsw0.getD (d + k) zPoly
  let bRow := fun k =>
    if k < d then rgsw0.getD (d + k) zPoly else rgsw0.getD (2 * d + k) zPoly
  let extProd := fun k => rlwe_by_rgsw q d dec fwd bwd rgsw1 ⟨aRow k, bRow k, false⟩
  ((List.range d).map (fun i => (extProd i).a))
    ++ ((List.range d).map (fun i => (extProd i).b))
    ++ ((List.range d).map (fun i => (extProd (d + i)).a))
    ++ ((List.range d).map (fun i => (extProd (d + i)).b))

/-- The homomorphic operations applied to an RLWE ciphertext during
evaluation: external product, its skip variant, and the Galois
automorphism. -/
inductive CtOp where
  | extProd (q d : Nat) (dec : Nat → List Nat) (fwd bwd : Poly → Poly)
      (rgsw : List Poly) : CtOp
  | extProdLess1 (q d : Nat) (dec : Nat → List Nat) (fwd bwd : Poly → Poly)
      (rgsw : List Poly) (skip0 skip1 : Nat) : CtOp
  | auto (q d ringSize : Nat) (dec : Nat → List Nat) (fwd bwd : Poly → Poly)
      (ksk scratch : List Poly) (autoMapIndex : Nat → Nat)
      (autoMapSign : Nat → Bool) : CtOp

/-- Interpretation of one ciphertext operation. -/
def applyCtOp : CtOp → RlweCt → RlweCt
  | CtOp.extProd q d dec fwd bwd rgsw, ct => rlwe_by_rgsw q d dec fwd bwd rgsw ct
  | CtOp.extProdLess1 q d dec fwd bwd rgsw s0 s1, ct =>
      less1_rlwe_by_rgsw q d dec fwd bwd rgsw s0 s1 ct
  | CtOp.auto q d n dec fwd bwd ksk scratch idx sgn, ct =>
      galois_auto q d n dec fwd bwd ksk scratch idx sgn ct

/-- Whether the operation multiplies by an RGSW ciphertext (external product
or its skip variant). -/
def isMulOp : CtOp → Bool
  | CtOp.extProd _ _ _ _ _ _ => true
  | CtOp.extProdLess1 _ _ _ _ _ _ _ _ => true
  | CtOp.auto _ _ _ _ _ _ _ _ _ _ => false

/-- Concrete CSPRNG model for witness instantiations: every draw is the
zero row and the state does not change. -/
def c8Fill : Unit → Nat → Nat → Poly × Unit := fun _ _ _ => (zPoly, ())

/-- Concrete seeder for witness instantiations. -/
def c8NewSeed : Nat → Unit := fun _ => ()

/-- Concrete parameter set: ring size 2, LWE dimension 1, all
decomposition counts 1. -/
def c8Params : BoolParameters :=
  { rlwe_n := 2, lwe_n := 1, rlwe_q := 7, lwe_q := 5, g := 3,
    auto_decomposition_count := 1, rlwe_rgsw_decomposition_count := (1, 1),
    lwe_decomposition_count := 1, auto_element_dlogs := [] }

/-- Concrete seeded single-party server key over `c8Params`: no auto keys,
no RGSW ciphertexts, a 2-element seeded LWE-KSK. -/
def c8Key : SeededSinglePartyServerKey Nat :=
  { rgsw_cts := [], auto_keys := [], lwe_ksk := [3, 4], parameters := c8Params,
    seed := 0 }

/-- The evaluation-domain key `c8Key` expands to. -/
def c8Out : ServerKeyEvaluationDomain :=
  { rgsw_cts := [], galois_keys := [],
    lwe_ksk := (expandLweKsk c8Fill 5 1 [3, 4] ()).1 }

/-- Concrete user subseed derivation for the non-interactive CRS. -/
def c9UiSeed : Nat → Nat := fun u => u

/-- Concrete decomposer for witness instantiations: a single digit. -/
def cDec : Nat → List Nat := fun x => [x % 5]

/-- Concrete 4-row RGSW matrix (d = 1) of constant rows. -/
def cG : List Poly := [fun _ => 1, fun _ => 2, fun _ => 3, fun _ => 4]

/-- Concrete non-trivial RLWE ciphertext. -/
def cCt : RlweCt := ⟨fun _ => 1, fun _ => 2, false⟩

/-- Identity automorphism index map. -/
def cIdx : Nat → Nat := fun i => i

/-- All-positive automorphism sign map. -/
def cSgn : Nat → Bool := fun _ => true

/-- Concrete trivial RLWE ciphertext. -/
def cCtT : RlweCt := ⟨zPoly, fun i => i + 1, true⟩

/-- Concrete (d+2)-row scratch matrix for d = 1. -/
def cScr : List Poly := [zPoly, zPoly, zPoly]

/-- Concrete collective public-key share. -/
def c6Share : CommonReferenceSeededCollectivePublicKeyShare Nat :=
  { share := fun _ => 3, cr_seed := 9, parameters := c8Params }

/-- Concrete CRS expander for the public-key row `a`. -/
def cCrsA : Nat → Nat → Poly := fun s q => fun i => (s + q + i) % 7

/-- Concrete seeded RGSW ciphertext (3d rows, d = 1). -/
def c7Rgsw : SeededRgswCiphertext Nat :=
  { data := [zPoly, zPoly, zPoly], ringSize := 2, seed := 1, modulus := 7 }

/-- Concrete seeded auto key (d = 1 stored b-rows). -/
def c7Auto : SeededAutoKey Nat :=
  { data := [zPoly], ringSize := 2, seed := 1, modulus := 7 }

/-- Concrete seeded RLWE ciphertext. -/
def c7Rlwe : SeededRlweCiphertext Nat :=
  { data := zPoly, ringSize := 2, seed := 1, modulus := 7 }

lemma getD_take_of_lt {α : Type} (l : List α) (n i : Nat) (z : α) (h : i < n) :
    (l.take n).getD i z = l.getD i z := by
  simp [List.getD_eq_getElem?_getD, List.getElem?_take_of_lt h]

lemma getD_drop {α : Type} (l : List α) (n i : Nat) (z : α) :
    (l.drop n).getD i z = l.getD (n + i) z := by
  simp [List.getD_eq_getElem?_getD, List.getElem?_drop]

lemma getD_take_drop {α : Type} (l : List α) (off d j : Nat) (z : α) (h : j < d) :
    ((l.drop off).take d).getD j z = l.getD (off + j) z := by
  rw [getD_take_of_lt _ _ _ _ h, getD_drop]

lemma getD_range_map {α : Type} (f : Nat → α) (n i : Nat) (z : α) (h : i < n) :
    ((List.range n).map f).getD i z = f i := by
  simp [List.getD_eq_getElem?_getD, List.getElem?_range h]

lemma length_decompose_r (d : Nat) (dec : Nat → List Nat) (r : Poly) :
    (decompose_r d dec r).length = d := by
  simp [decompose_r]

/-- Pointwise value of `routine`: starting from a reduced accumulator cell it
computes the accumulated dot product of the row pairs, mod `q`. -/
lemma routine_apply (q : Nat) (A : List Poly) :
    ∀ (B : List Poly) (acc : Poly) (i : Nat), acc i % q = acc i →
      A.length = B.length →
      routine q acc A B i =
        (acc i + ((List.range A.length).map
          (fun j => A.getD j zPoly i * B.getD j zPoly i)).sum) % q := by
  induction A with
  | nil =>
    intro B acc i hacc _
    simp [routine, hacc]
  | cons a A ih =>
    intro B acc i hacc hlen
    cases B with
    | nil => simp at hlen
    | cons b B =>
      have hlen' : A.length = B.length := by simpa using hlen
      have hidem : elwiseFma q acc a b i % q = elwiseFma q acc a b i :=
        Nat.mod_mod_of_dvd _ dvd_rfl
      have hstep : routine q acc (a :: A) (b :: B) =
          routine q (elwiseFma q acc a b) A B := rfl
      rw [hstep, ih B (elwiseFma q acc a b) i hidem hlen']
      have hsum : ((List.range (a :: A).length).map
          (fun j => (a :: A).getD j zPoly i * (b :: B).getD j zPoly i)).sum
          = a i * b i + ((List.range A.length).map
            (fun j => A.getD j zPoly i * B.getD j zPoly i)).sum := by
        rw [List.length_cons, List.range_succ_eq_map, List.map_cons, List.map_map]
        simp [Function.comp_def]
      rw [hsum, elwiseFma]
      rw [Nat.mod_add_mod, Nat.add_assoc]

/-- Claim C1: `rlwe_by_rgsw` overwrites the ciphertext with the inverse NTT
of the gadget-accumulation sums - the decomposed-`a` sums against rows
`0..2d` exactly when the input is non-trivial, and always the decomposed-`b`
sums against rows `2d..4d` - element-wise mod `q`. -/
theorem rlwe_by_rgsw_matches_spec (q d : Nat) (dec : Nat → List Nat)
    (fwd bwd : Poly → Poly) (rgsw : List Poly) (ct : RlweCt)
    (hG : rgsw.length = 4 * d) :
    rlwe_by_rgsw q d dec fwd bwd rgsw ct = rlweByRgswSpec q d dec fwd bwd rgsw ct := by
  have hda : ((decompose_r d dec ct.a).map fwd).length = d := by simp [decompose_r]
  have hdb : ((decompose_r d dec ct.b).map fwd).length = d := by simp [decompose_r]
  have hdot : ∀ (A B : List Poly) (off : Nat) (acc : Poly) (i : Nat),
      A.length = d → B.length = d →
      (∀ j, j < d → B.getD j zPoly = rgsw.getD (off + j) zPoly) →
      acc i % q = acc i →
      routine q acc A B i =
        (acc i + ((List.range d).map
          (fun j => A.getD j zPoly i * rgsw.getD (off + j) zPoly i)).sum) % q := by
    intro A B off acc i hA hB hBj hacc
    rw [routine_apply q A B acc i hacc (by rw [hA, hB]), hA]
    have hmap : List.map (fun j => A.getD j zPoly i * B.getD j zPoly i) (List.range d)
        = List.map (fun j => A.getD j zPoly i * rgsw.getD (off + j) zPoly i)
          (List.range d) := by
      apply List.map_congr_left
      intro j hj
      rw [hBj j (List.mem_range.mp hj)]
    rw [hmap]
  have hg1 : ∀ j, j < d →
      ((rgsw.take (2 * d)).take d).getD j zPoly = rgsw.getD (0 + j) zPoly := by
    intro j hj
    rw [Nat.zero_add, getD_take_of_lt _ _ _ _ hj, getD_take_of_lt _ _ _ _ (by omega)]
  have hg2 : ∀ j, j < d →
      ((rgsw.take (2 * d)).drop d).getD j zPoly = rgsw.getD (d + j) zPoly := by
    intro j hj
    rw [getD_drop, getD_take_of_lt _ _ _ _ (by omega)]
  have hg3 : ∀ j, j < d →
      ((rgsw.drop (2 * d)).take d).getD j zPoly = rgsw.getD (2 * d + j) zPoly := by
    intro j hj
    rw [getD_take_drop _ _ _ _ _ hj]
  have hg4 : ∀ j, j < d →
      ((rgsw.drop (2 * d)).drop d).getD j zPoly = rgsw.getD (3 * d + j) zPoly := by
    intro j hj
    rw [getD_drop, getD_drop]
    congr 1
    omega
  have hl1 : ((rgsw.take (2 * d)).take d).length = d := by
    simp only [List.length_take, hG]; omega
  have hl2 : ((rgsw.take (2 * d)).drop d).length = d := by
    simp only [List.length_drop, List.length_take, hG]; omega
  have hl3 : ((rgsw.drop (2 * d)).take d).length = d := by
    simp only [List.length_take, List.length_drop, hG]; omega
  have hl4 : ((rgsw.drop (2 * d)).drop d).length = d := by
    simp only [List.length_drop, hG]; omega
  have hzero : ∀ i : Nat, zPoly i % q = zPoly i := fun _ => Nat.zero_mod q
  simp only [rlwe_by_rgsw, rlweByRgswSpec]
  cases htriv : ct.is_trivial with
  | true =>
    simp only [reduceIte]
    congr 1
    · refine congrArg bwd ?_
      funext i
      rw [hdot _ _ (2 * d) zPoly i hdb hl3 hg3 (hzero i)]
      rfl
    · refine congrArg bwd ?_
      funext i
      rw [hdot _ _ (3 * d) zPoly i hdb hl4 hg4 (hzero i)]
      rfl
  | false =>
    simp only [Bool.false_eq_true, reduceIte]
    congr 1
    · refine congrArg bwd ?_
      funext i
      rw [hdot _ _ (2 * d) _ i hdb hl3 hg3
          (by rw [hdot _ _ 0 zPoly i hda hl1 hg1 (hzero i)]
              exact Nat.mod_mod_of_dvd _ dvd_rfl),
        hdot _ _ 0 zPoly i hda hl1 hg1 (hzero i), Nat.mod_add_mod]
      simp [zPoly, Nat.add_assoc]
    · refine congrArg bwd ?_
      funext i
      rw [hdot _ _ (3 * d) _ i hdb hl4 hg4
          (by rw [hdot _ _ d zPoly i hda hl2 hg2 (hzero i)]
              exact Nat.mod_mod_of_dvd _ dvd_rfl),
        hdot _ _ d zPoly i hda hl2 hg2 (hzero i), Nat.mod_add_mod]
      simp [zPoly, Nat.add_assoc]

lemma getD_eq_getElem {α : Type} (l : List α) (i : Nat) (z : α) (h : i < l.length) :
    l.getD i z = l[i] := by
  rw [List.getD_eq_getElem?_getD, List.getElem?_eq_getElem h]
  rfl

lemma ext_getD {α : Type} (z : α) (l1 l2 : List α) (h : l1.length = l2.length)
    (he : ∀ i, i < l1.length → l1.getD i z = l2.getD i z) : l1 = l2 := by
  apply List.ext_getElem h
  intro i h1 h2
  rw [← getD_eq_getElem l1 i z h1, ← getD_eq_getElem l2 i z h2]
  exact he i h1

lemma getD_map {α β : Type} (f : α → β) (l : List α) (i : Nat) (z1 : α) (z2 : β)
    (h : i < l.length) : (l.map f).getD i z2 = f (l.getD i z1) := by
  rw [getD_eq_getElem _ _ _ (by simpa using h), List.getElem_map,
    getD_eq_getElem _ _ _ h]

lemma getD_zip {α β : Type} (A : List α) (B : List β) (i : Nat) (za : α) (zb : β)
    (ha : i < A.length) (hb : i < B.length) :
    (A.zip B).getD i (za, zb) = (A.getD i za, B.getD i zb) := by
  rw [getD_eq_getElem _ _ _ (by simp [ha, hb]), List.getElem_zip,
    getD_eq_getElem _ _ _ ha, getD_eq_getElem _ _ _ hb]

lemma getD_append_left {α : Type} (l1 l2 : List α) (i : Nat) (z : α)
    (h : i < l1.length) : (l1 ++ l2).getD i z = l1.getD i z := by
  simp [List.getD_eq_getElem?_getD, List.getElem?_append_left h]

lemma getD_append_right_off {α : Type} (l1 l2 : List α) (n i : Nat) (z : α)
    (h : l1.length = n) : (l1 ++ l2).getD (n + i) z = l2.getD i z := by
  subst h
  rw [List.getD_eq_getElem?_getD, List.getElem?_append_right (by omega),
    List.getD_eq_getElem?_getD]
  have hidx : l1.length + i - l1.length = i := by omega
  rw [hidx]

/-- On a non-trivial RLWE ciphertext the external product computes exactly
the loop body of the internal product, inverse-NTT'd. -/
lemma rlwe_by_rgsw_not_trivial (q d : Nat) (dec : Nat → List Nat)
    (fwd bwd : Poly → Poly) (rgsw1 : List Poly) (pa pb : Poly) :
    rlwe_by_rgsw q d dec fwd bwd rgsw1 ⟨pa, pb, false⟩ =
      ⟨bwd (extProdPair q d dec fwd rgsw1 pa pb).1,
       bwd (extProdPair q d dec fwd rgsw1 pa pb).2, false⟩ := by
  simp [rlwe_by_rgsw, extProdPair]

/-- Claim C2: the in-place internal product equals 2d external products, one
per row pair of `rgsw0`, accumulated against `rgsw1` and laid back out as
the four d-row blocks. -/
theorem rgsw_by_rgsw_inplace_matches_external_products (q d : Nat)
    (dec : Nat → List Nat) (fwd bwd : Poly → Poly) (rgsw0 rgsw1 : List Poly)
    (h0 : rgsw0.length = 4 * d) (h1 : rgsw1.length = 4 * d) :
    rgsw_by_rgsw_inplace q d dec fwd bwd rgsw0 rgsw1 =
      some (rgswByExternalProducts q d dec fwd bwd rgsw0 rgsw1) := by
  have lnsm : (rgsw0.take (2 * d)).length = 2 * d := by
    rw [List.length_take, h0]; omega
  have lm : (rgsw0.drop (2 * d)).length = 2 * d := by
    rw [List.length_drop, h0]; omega
  have ltn : ((rgsw0.take (2 * d)).take d).length = d := by
    rw [List.length_take, lnsm]; omega
  have ltm : ((rgsw0.drop (2 * d)).take d).length = d := by
    rw [List.length_take, lm]; omega
  have ldn : ((rgsw0.take (2 * d)).drop d).length = d := by
    rw [List.length_drop, lnsm]; omega
  have ldm : ((rgsw0.drop (2 * d)).drop d).length = d := by
    rw [List.length_drop, lm]; omega
  have lA : ((rgsw0.take (2 * d)).take d ++ (rgsw0.drop (2 * d)).take d).length
      = 2 * d := by
    rw [List.length_append, ltn, ltm]; omega
  have lB : ((rgsw0.take (2 * d)).drop d ++ (rgsw0.drop (2 * d)).drop d).length
      = 2 * d := by
    rw [List.length_append, ldn, ldm]; omega
  have hrowA : ∀ k, k < 2 * d →
      ((rgsw0.take (2 * d)).take d ++ (rgsw0.drop (2 * d)).take d).getD k zPoly
        = (if k < d then rgsw0.getD k zPoly else rgsw0.getD (d + k) zPoly) := by
    intro k hk
    by_cases hkd : k < d
    · rw [if_pos hkd, getD_append_left _ _ _ _ (by rw [ltn]; exact hkd),
        getD_take_of_lt _ _ _ _ hkd, getD_take_of_lt _ _ _ _ (by omega)]
    · rw [if_neg hkd]
      obtain ⟨i, rfl⟩ : ∃ i, k = d + i := ⟨k - d, by omega⟩
      rw [getD_append_right_off _ _ d i _ ltn,
        getD_take_drop _ _ _ _ _ (by omega)]
      congr 1
      omega
  have hrowB : ∀ k, k < 2 * d →
      ((rgsw0.take (2 * d)).drop d ++ (rgsw0.drop (2 * d)).drop d).getD k zPoly
        = (if k < d then rgsw0.getD (d + k) zPoly
           else rgsw0.getD (2 * d + k) zPoly) := by
    intro k hk
    by_cases hkd : k < d
    · rw [if_pos hkd, getD_append_left _ _ _ _ (by rw [ldn]; exact hkd),
        getD_drop, getD_take_of_lt _ _ _ _ (by omega)]
    · rw [if_neg hkd]
      obtain ⟨i, rfl⟩ : ∃ i, k = d + i := ⟨k - d, by omega⟩
      rw [getD_append_right_off _ _ d i _ ldn, getD_drop, getD_drop]
  simp only [rgsw_by_rgsw_inplace, if_pos (And.intro h0 h1)]
  refine congrArg some ?_
  unfold rgswByExternalProducts
  simp only [List.map_append]
  generalize hP : (((rgsw0.take (2 * d)).take d ++ (rgsw0.drop (2 * d)).take d).zip
      ((rgsw0.take (2 * d)).drop d ++ (rgsw0.drop (2 * d)).drop d)).map
      (fun p => extProdPair q d dec fwd rgsw1 p.1 p.2) = P
  have lP : P.length = 2 * d := by
    rw [← hP, List.length_map, List.length_zip, lA, lB]; omega
  have hprodP : ∀ k, k < 2 * d → P.getD k (zPoly, zPoly)
      = extProdPair q d dec fwd rgsw1
          (if k < d then rgsw0.getD k zPoly else rgsw0.getD (d + k) zPoly)
          (if k < d then rgsw0.getD (d + k) zPoly else rgsw0.getD (2 * d + k) zPoly) := by
    intro k hk
    rw [← hP, getD_map _ _ _ (zPoly, zPoly) _ (by rw [List.length_zip, lA, lB]; omega),
      getD_zip _ _ _ zPoly zPoly (by rw [lA]; omega) (by rw [lB]; omega),
      hrowA k hk, hrowB k hk]
  have ltP : (P.take d).length = d := by rw [List.length_take, lP]; omega
  have ldP : (P.drop d).length = d := by rw [List.length_drop, lP]; omega
  congr 1
  congr 1
  congr 1
  -- block 1: a-rows of the −sm pairs
  · apply ext_getD zPoly
    · rw [List.length_map, List.length_map, ltP, List.length_map, List.length_range]
    · intro i hi
      have hid : i < d := by
        rw [List.length_map, List.length_map, ltP] at hi
        exact hi
      rw [getD_map bwd _ _ (zPoly, zPoly).1 _ (by rw [List.length_map, ltP]; exact hid),
        getD_map Prod.fst _ _ (zPoly, zPoly) _ (by rw [ltP]; exact hid),
        getD_take_of_lt _ _ _ _ hid, hprodP i (by omega),
        getD_range_map _ _ _ _ hid, rlwe_by_rgsw_not_trivial]
  -- block 2: b-rows of the −sm pairs
  · apply ext_getD zPoly
    · rw [List.length_map, List.length_map, ltP, List.length_map, List.length_range]
    · intro i hi
      have hid : i < d := by
        rw [List.length_map, List.length_map, ltP] at hi
        exact hi
      rw [getD_map bwd _ _ (zPoly, zPoly).2 _ (by rw [List.length_map, ltP]; exact hid),
        getD_map Prod.snd _ _ (zPoly, zPoly) _ (by rw [ltP]; exact hid),
        getD_take_of_lt _ _ _ _ hid, hprodP i (by omega),
        getD_range_map _ _ _ _ hid, rlwe_by_rgsw_not_trivial]
  -- block 3: a-rows of the m pairs
  · apply ext_getD zPoly
    · rw [List.length_map, List.length_map, ldP, List.length_map, List.length_range]
    · intro i hi
      have hid : i < d := by
        rw [List.length_map, List.length_map, ldP] at hi
        exact hi
      rw [getD_map bwd _ _ (zPoly, zPoly).1 _ (by rw [List.length_map, ldP]; exact hid),
        getD_map Prod.fst _ _ (zPoly, zPoly) _ (by rw [ldP]; exact hid),
        getD_drop, hprodP (d + i) (by omega),
        getD_range_map _ _ _ _ hid, rlwe_by_rgsw_not_trivial]
  -- block 4: b-rows of the m pairs
  · apply ext_getD zPoly
    · rw [List.length_map, List.length_map, ldP, List.length_map, List.length_range]
    · intro i hi
      have hid : i < d := by
        rw [List.length_map, List.length_map, ldP] at hi
        exact hi
      rw [getD_map bwd _ _ (zPoly, zPoly).2 _ (by rw [List.length_map, ldP]; exact hid),
        getD_map Prod.snd _ _ (zPoly, zPoly) _ (by rw [ldP]; exact hid),
        getD_drop, hprodP (d + i) (by omega),
        getD_range_map _ _ _ _ hid, rlwe_by_rgsw_not_trivial]

/-- The multiplier actually used by `generate_auto_map` agrees, modulo `2N`,
with `k` reduced into `0..2N`. -/
lemma auto_map_k_reduction (N : Nat) (hN : 0 < N) (k : Int) (hk : k % 2 = 1) :
    (if k < 0 then 2 * N - k.natAbs % (2 * N) else k.toNat) % (2 * N)
      = (k % ((2 * N : Nat) : Int)).toNat := by
  have h2N : 0 < 2 * N := by omega
  by_cases hneg : k < 0
  · rw [if_pos hneg]
    have hrlt : k.natAbs % (2 * N) < 2 * N := Nat.mod_lt _ h2N
    have hrodd : k.natAbs % (2 * N) % 2 = 1 := by
      have h1 : k.natAbs % (2 * N) % 2 = k.natAbs % 2 :=
        Nat.mod_mod_of_dvd _ ⟨N, rfl⟩
      have h3 : Odd k.natAbs := Int.natAbs_odd.mpr (Int.odd_iff.mpr hk)
      rw [h1]
      exact Nat.odd_iff.mp h3
    have hrpos : 0 < k.natAbs % (2 * N) := by omega
    have habs : ((k.natAbs : Int)) = -k := Int.ofNat_natAbs_of_nonpos (le_of_lt hneg)
    have hdm : 2 * N * (k.natAbs / (2 * N)) + k.natAbs % (2 * N) = k.natAbs :=
      Nat.div_add_mod _ _
    have hcast2 : ((2 * N - k.natAbs % (2 * N) : Nat) : Int)
        = ((2 * N : Nat) : Int) - ((k.natAbs % (2 * N) : Nat) : Int) :=
      Nat.cast_sub (le_of_lt hrlt)
    have hteq : k = ((2 * N - k.natAbs % (2 * N) : Nat) : Int)
        + ((2 * N : Nat) : Int) * (-((k.natAbs / (2 * N) : Nat) : Int) - 1) := by
      have h1 : ((2 * N : Nat) : Int) * ((k.natAbs / (2 * N) : Nat) : Int)
          + ((k.natAbs % (2 * N) : Nat) : Int) = ((k.natAbs : Nat) : Int) := by
        exact_mod_cast hdm
      have h3 : k = -((k.natAbs : Nat) : Int) := by omega
      rw [hcast2]
      linear_combination h3 + h1
    have hmod : k % ((2 * N : Nat) : Int)
        = ((2 * N - k.natAbs % (2 * N) : Nat) : Int) := by
      conv_lhs => rw [hteq]
      rw [Int.add_mul_emod_self_left]
      apply Int.emod_eq_of_lt (Int.ofNat_nonneg _)
      exact_mod_cast Nat.sub_lt h2N hrpos
    rw [hmod, Int.toNat_natCast]
    exact Nat.mod_eq_of_lt (by omega)
  · rw [if_neg hneg]
    obtain ⟨n, rfl⟩ : ∃ n : Nat, k = (n : Int) :=
      ⟨k.toNat, by exact_mod_cast (Int.toNat_of_nonneg (not_lt.mp hneg)).symm⟩
    rw [Int.toNat_natCast, ← Int.natCast_mod, Int.toNat_natCast]

/-- Core property of `generate_auto_map` for any positive ring size and odd
`k`: index and sign tables of length `N` describing
`X^i ↦ sign[i] · X^{idx[i]}`. -/
lemma generate_auto_map_odd (N : Nat) (hN : 0 < N) (k : Int) (hk : k % 2 = 1) :
    ∃ idx sgn, generate_auto_map N k = some (idx, sgn) ∧
      idx.length = N ∧ sgn.length = N ∧
      ∀ i, i < N →
        idx.getD i 0 = i * (k % ((2 * N : Nat) : Int)).toNat % (2 * N) % N ∧
        (sgn.getD i true = false ↔
          N ≤ i * (k % ((2 * N : Nat) : Int)).toNat % (2 * N)) := by
  have h2N : 0 < 2 * N := by omega
  have hkredlt : (k % ((2 * N : Nat) : Int)).toNat < 2 * N := by
    have h1 := Int.emod_lt_of_pos k (b := ((2 * N : Nat) : Int)) (by exact_mod_cast h2N)
    have h2 := Int.emod_nonneg k (b := ((2 * N : Nat) : Int)) (by exact_mod_cast Nat.pos_iff_ne_zero.mp h2N)
    omega
  have hmul : ∀ i : Nat,
      i * (if k < 0 then 2 * N - k.natAbs % (2 * N) else k.toNat) % (2 * N)
        = i * (k % ((2 * N : Nat) : Int)).toNat % (2 * N) := by
    intro i
    conv_lhs => rw [Nat.mul_mod, auto_map_k_reduction N hN k hk]
    conv_rhs => rw [Nat.mul_mod, Nat.mod_eq_of_lt hkredlt]
  have hgen : generate_auto_map N k = some (((List.range N).map (fun i =>
      if N ≤ i * (if k < 0 then 2 * N - k.natAbs % (2 * N) else k.toNat) % (2 * N)
      then (i * (if k < 0 then 2 * N - k.natAbs % (2 * N) else k.toNat) % (2 * N) - N,
        false)
      else (i * (if k < 0 then 2 * N - k.natAbs % (2 * N) else k.toNat) % (2 * N),
        true))).unzip) := by
    unfold generate_auto_map
    rw [if_pos hk]
  refine ⟨_, _, hgen, ?_, ?_, ?_⟩
  · simp only [List.unzip_fst, List.length_map, List.length_range]
  · simp only [List.unzip_snd, List.length_map, List.length_range]
  · intro i hi
    have hlt : i * (if k < 0 then 2 * N - k.natAbs % (2 * N) else k.toNat) % (2 * N)
        < 2 * N := Nat.mod_lt _ h2N
    constructor
    · rw [List.unzip_fst, List.map_map, getD_range_map _ _ _ _ hi, ← hmul i]
      simp only [Function.comp_def]
      by_cases hNt : N ≤ i * (if k < 0 then 2 * N - k.natAbs % (2 * N) else k.toNat) % (2 * N)
      · have hsubN : i * (if k < 0 then 2 * N - k.natAbs % (2 * N) else k.toNat) % (2 * N) - N
            < N := by omega
        rw [if_pos hNt, Nat.mod_eq_sub_mod hNt, Nat.mod_eq_of_lt hsubN]
      · rw [if_neg hNt, Nat.mod_eq_of_lt (not_le.mp hNt)]
    · rw [List.unzip_snd, List.map_map, getD_range_map _ _ _ _ hi, ← hmul i]
      simp only [Function.comp_def]
      by_cases hNt : N ≤ i * (if k < 0 then 2 * N - k.natAbs % (2 * N) else k.toNat) % (2 * N)
      · rw [if_pos hNt]
        exact iff_of_true rfl hNt
      · rw [if_neg hNt]
        exact iff_of_false (fun h => Bool.noConfusion h) hNt

/-- Claim C3: for every power-of-two ring size `2^m` and odd `k` (negative
`k` reduced mod `2N`), `generate_auto_map` returns length-`N` tables with
`idx[i] = (i·k' mod 2N) mod N` and `sign[i] = false` exactly when
`(i·k' mod 2N) ≥ N`, where `k'` is `k` reduced into `0..2N`; for even `k`
the assertion fails. -/
theorem generate_auto_map_spec (m : Nat) (k : Int) :
    ((k % 2 = 1) →
      ∃ idx sgn, generate_auto_map (2 ^ m) k = some (idx, sgn) ∧
        idx.length = 2 ^ m ∧ sgn.length = 2 ^ m ∧
        ∀ i, i < 2 ^ m →
          idx.getD i 0 = i * (k % ((2 * 2 ^ m : Nat) : Int)).toNat % (2 * 2 ^ m) % 2 ^ m ∧
          (sgn.getD i true = false ↔
            2 ^ m ≤ i * (k % ((2 * 2 ^ m : Nat) : Int)).toNat % (2 * 2 ^ m))) ∧
    ((k % 2 = 0) → generate_auto_map (2 ^ m) k = none) := by
  constructor
  · intro hk
    exact generate_auto_map_odd (2 ^ m) (pow_pos (by norm_num) m) k hk
  · intro hk0
    simp only [generate_auto_map]
    rw [if_neg (by omega)]

/-- A fold of index-wise updates leaves unwritten positions unchanged. -/
lemma foldl_update_notin {β : Type} (idx : Nat → Nat) (v : Nat → β) :
    ∀ (l : List Nat) (g : Nat → β) (x : Nat), (∀ j ∈ l, idx j ≠ x) →
      (l.foldl (fun f j => Function.update f (idx j) (v j)) g) x = g x := by
  intro l
  induction l with
  | nil => intro g x _; rfl
  | cons a t ih =>
    intro g x hx
    simp only [List.foldl_cons]
    rw [ih _ x (fun j hj => hx j (List.mem_cons_of_mem a hj))]
    exact Function.update_noteq (Ne.symm (hx a (List.mem_cons_self a t))) (v a) g

/-- A fold of index-wise updates stores `v i` at position `idx i` when the
index map is injective on the written set. -/
lemma foldl_update_get {β : Type} (idx : Nat → Nat) (v : Nat → β) :
    ∀ (l : List Nat) (g : Nat → β) (i : Nat), i ∈ l →
      (∀ j ∈ l, idx j = idx i → j = i) →
      (l.foldl (fun f j => Function.update f (idx j) (v j)) g) (idx i) = v i := by
  intro l
  induction l with
  | nil => intro g i hi _; exact absurd hi (List.not_mem_nil i)
  | cons a t ih =>
    intro g i hi hinj
    simp only [List.foldl_cons]
    by_cases hit : i ∈ t
    · exact ih _ i hit (fun j hj => hinj j (List.mem_cons_of_mem a hj))
    · have hia : i = a := by
        rcases List.mem_cons.mp hi with h | h
        · exact h
        · exact absurd h hit
      subst hia
      have hnw : ∀ j ∈ t, idx j ≠ idx i := fun j hj hji =>
        hit ((hinj j (List.mem_cons_of_mem i hj) hji) ▸ hj)
      rw [foldl_update_notin idx v t _ (idx i) hnw]
      exact Function.update_same (idx i) (v i) g

/-- Claim C4: on a trivial ciphertext, `galois_auto` writes only the signed
permutation of the `b` row - `b_out[idx[i]]` is `b[i]` under a positive sign
and its modular negation otherwise - leaves the `a` row and the
`is_trivial` flag unchanged, and performs no decomposition, NTT or
key-switch: the output does not depend on the decomposer, the NTT operator,
or the automorphism key. -/
theorem galois_auto_trivial_frame (q d ringSize : Nat) (dec : Nat → List Nat)
    (fwd bwd : Poly → Poly) (ksk scratch : List Poly) (autoMapIndex : Nat → Nat)
    (autoMapSign : Nat → Bool) (ct : RlweCt) (ht : ct.is_trivial = true)
    (hinj : ∀ i, i < ringSize → ∀ j, j < ringSize →
      autoMapIndex i = autoMapIndex j → i = j) :
    (galois_auto q d ringSize dec fwd bwd ksk scratch autoMapIndex autoMapSign ct).a
        = ct.a ∧
    (galois_auto q d ringSize dec fwd bwd ksk scratch autoMapIndex autoMapSign
        ct).is_trivial = ct.is_trivial ∧
    (∀ i, i < ringSize →
      (galois_auto q d ringSize dec fwd bwd ksk scratch autoMapIndex autoMapSign ct).b
          (autoMapIndex i)
        = (if autoMapSign i then ct.b i else negMod q (ct.b i))) ∧
    (∀ (dec2 : Nat → List Nat) (fwd2 bwd2 : Poly → Poly) (ksk2 : List Poly),
      galois_auto q d ringSize dec2 fwd2 bwd2 ksk2 scratch autoMapIndex autoMapSign ct
        = galois_auto q d ringSize dec fwd bwd ksk scratch autoMapIndex autoMapSign ct) := by
  have hb : ∀ i, i < ringSize →
      ((List.range ringSize).foldl (fun f i2 => Function.update f (autoMapIndex i2)
          (if autoMapSign i2 then ct.b i2 else negMod q (ct.b i2)))
        (scratch.getD (d + 1) zPoly)) (autoMapIndex i)
      = (if autoMapSign i then ct.b i else negMod q (ct.b i)) := by
    intro i hi
    exact foldl_update_get autoMapIndex _ (List.range ringSize) _ i
      (List.mem_range.mpr hi)
      (fun j hj hji => hinj j (List.mem_range.mp hj) i hi hji)
  refine ⟨?_, ?_, ?_, ?_⟩
  · simp only [galois_auto, ht, reduceIte]
  · simp only [galois_auto, ht, reduceIte]
  · intro i hi
    simp only [galois_auto, ht, reduceIte]
    exact hb i hi
  · intro dec2 fwd2 bwd2 ksk2
    simp only [galois_auto, ht, reduceIte]

/-- Claim C5: across every sequence of external products, skip-variant
external products, and Galois automorphisms, a cleared `is_trivial` flag
never becomes true again; and after every external product (plain or skip
variant) the flag is false regardless of the input. -/
theorem is_trivial_never_returns (ops : List CtOp) (ct : RlweCt) :
    (ct.is_trivial = false →
      (ops.foldl (fun c op => applyCtOp op c) ct).is_trivial = false) ∧
    (∀ op, isMulOp op = true → (applyCtOp op ct).is_trivial = false) := by
  have hflag : ∀ (op : CtOp) (ct2 : RlweCt), (applyCtOp op ct2).is_trivial = false ∨
      (applyCtOp op ct2).is_trivial = ct2.is_trivial := by
    intro op ct2
    cases op with
    | extProd q d dec fwd bwd rgsw => exact Or.inl rfl
    | extProdLess1 q d dec fwd bwd rgsw s0 s1 => exact Or.inl rfl
    | auto q d n dec fwd bwd ksk scratch idx sgn =>
      refine Or.inr ?_
      cases hc : ct2.is_trivial
      · simp [applyCtOp, galois_auto, hc]
      · simp [applyCtOp, galois_auto, hc]
  constructor
  · induction ops generalizing ct with
    | nil => intro h; exact h
    | cons op t ih =>
      intro h
      simp only [List.foldl_cons]
      apply ih
      rcases hflag op ct with h2 | h2
      · exact h2
      · rw [h2]; exact h
  · intro op hop
    cases op with
    | extProd q d dec fwd bwd rgsw => rfl
    | extProdLess1 q d dec fwd bwd rgsw s0 s1 => rfl
    | auto q d n dec fwd bwd ksk scratch idx sgn => exact Bool.noConfusion hop

/-- Pointwise value of the share-summing fold of the aggregators. -/
lemma foldl_elwiseAdd_apply {S : Type} (q : Nat) :
    ∀ (l : List (CommonReferenceSeededCollectivePublicKeyShare S)) (acc : Poly) (i : Nat),
      acc i % q = acc i →
      (l.foldl (fun acc2 si => elwiseAdd q acc2 si.share) acc) i
        = (acc i + (l.map (fun si => si.share i)).sum) % q := by
  intro l
  induction l with
  | nil =>
    intro acc i hacc
    simp [hacc]
  | cons s t ih =>
    intro acc i hacc
    simp only [List.foldl_cons, List.map_cons, List.sum_cons]
    rw [ih (elwiseAdd q acc s.share) i (Nat.mod_mod_of_dvd _ dvd_rfl)]
    simp only [elwiseAdd]
    rw [Nat.mod_add_mod, Nat.add_assoc]

/-- Claim C6: aggregating a non-empty slice of collective public-key shares
yields row 0 drawn from the first share's CRS seed and row 1 the
element-wise sum mod q of all shares' b polynomials; it aborts exactly when
some share disagrees with the first share on CRS seed or parameters. -/
theorem publicKeyFromShares_spec {S : Type} [DecidableEq S] (crsA : S → Nat → Poly)
    (s0 : CommonReferenceSeededCollectivePublicKeyShare S)
    (rest : List (CommonReferenceSeededCollectivePublicKeyShare S)) :
    (publicKeyFromShares crsA (s0 :: rest) = none ↔
      ∃ si ∈ (s0 :: rest),
        ¬(si.cr_seed = s0.cr_seed ∧ si.parameters = s0.parameters)) ∧
    ((∀ si ∈ (s0 :: rest), si.cr_seed = s0.cr_seed ∧ si.parameters = s0.parameters) →
      publicKeyFromShares crsA (s0 :: rest)
        = some (crsA s0.cr_seed s0.parameters.rlwe_q,
            fun i => (((s0 :: rest).map (fun si => si.share i)).sum)
              % s0.parameters.rlwe_q)) := by
  have hallIff : ((s0 :: rest).all (fun si =>
      decide (si.cr_seed = s0.cr_seed) && decide (si.parameters = s0.parameters)) = true)
      ↔ (∀ si ∈ (s0 :: rest),
          si.cr_seed = s0.cr_seed ∧ si.parameters = s0.parameters) := by
    simp [List.all_eq_true]
  simp only [publicKeyFromShares]
  by_cases hall : ∀ si ∈ (s0 :: rest),
      si.cr_seed = s0.cr_seed ∧ si.parameters = s0.parameters
  · rw [if_pos (hallIff.mpr hall)]
    constructor
    · constructor
      · intro h
        exact absurd h (Option.some_ne_none _)
      · rintro ⟨si, hmem, hne⟩
        exact absurd (hall si hmem) hne
    · intro _
      refine congrArg some ?_
      refine congrArg (Prod.mk _) ?_
      funext i
      rw [foldl_elwiseAdd_apply _ _ zPoly i (Nat.zero_mod _)]
      simp [zPoly]
  · rw [if_neg (fun hcond => hall (hallIff.mp hcond))]
    constructor
    · constructor
      · intro _
        push_neg at hall
        obtain ⟨si, hmem, hne⟩ := hall
        exact ⟨si, hmem, fun hand => hne hand.1 hand.2⟩
      · intro _
        rfl
    · intro hc
      exact absurd hc hall

/-- Claim C10: both public-key aggregation entry points reject an empty
share slice (the non-emptiness assertion), and both are defined on a
single share. -/
theorem publicKey_aggregation_empty_rejected {S : Type} [DecidableEq S]
    (crsA : S → Nat → Poly)
    (s0 : CommonReferenceSeededCollectivePublicKeyShare S) :
    publicKeyFromShares crsA
        ([] : List (CommonReferenceSeededCollectivePublicKeyShare S)) = none ∧
    seededPublicKeyFromShares
        ([] : List (CommonReferenceSeededCollectivePublicKeyShare S)) = none ∧
    (publicKeyFromShares crsA [s0]).isSome = true ∧
    (seededPublicKeyFromShares [s0]).isSome = true := by
  refine ⟨rfl, rfl, ?_, ?_⟩
  · simp [publicKeyFromShares]
  · simp [seededPublicKeyFromShares]

/-- Claim C7: seeded→evaluation expansion is deterministic - each expander
is a pure function of the seeded key's stored rows, ring size, seed,
modulus and parameters, so expansions of equal seeded keys coincide (for
the seeded RGSW ciphertext, seeded auto key, seeded RLWE ciphertext, and
seeded single-party server key alike). -/
theorem seeded_expansion_deterministic {S σ : Type} (newWithSeed : S → σ)
    (fill : σ → Nat → Nat → Poly × σ) (fwd : Poly → Poly) :
    (∀ v1 v2 : SeededRgswCiphertext S, v1.data = v2.data → v1.ringSize = v2.ringSize →
      v1.seed = v2.seed → v1.modulus = v2.modulus →
      expandSeededRgswCiphertext newWithSeed fill fwd v1
        = expandSeededRgswCiphertext newWithSeed fill fwd v2) ∧
    (∀ v1 v2 : SeededAutoKey S, v1.data = v2.data → v1.ringSize = v2.ringSize →
      v1.seed = v2.seed → v1.modulus = v2.modulus →
      expandSeededAutoKey newWithSeed fill fwd v1
        = expandSeededAutoKey newWithSeed fill fwd v2) ∧
    (∀ v1 v2 : SeededRlweCiphertext S, v1.data = v2.data → v1.ringSize = v2.ringSize →
      v1.seed = v2.seed → v1.modulus = v2.modulus →
      expandSeededRlweCiphertext newWithSeed fill v1
        = expandSeededRlweCiphertext newWithSeed fill v2) ∧
    (∀ v1 v2 : SeededSinglePartyServerKey S, v1.rgsw_cts = v2.rgsw_cts →
      v1.auto_keys = v2.auto_keys → v1.lwe_ksk = v2.lwe_ksk →
      v1.parameters = v2.parameters → v1.seed = v2.seed →
      expandSeededSinglePartyServerKey newWithSeed fill fwd v1
        = expandSeededSinglePartyServerKey newWithSeed fill fwd v2) := by
  refine ⟨?_, ?_, ?_, ?_⟩
  · intro v1 v2 h1 h2 h3 h4
    have hv : v1 = v2 := by
      cases v1
      cases v2
      simp only [SeededRgswCiphertext.mk.injEq]
      exact ⟨h1, h2, h3, h4⟩
    rw [hv]
  · intro v1 v2 h1 h2 h3 h4
    have hv : v1 = v2 := by
      cases v1
      cases v2
      simp only [SeededAutoKey.mk.injEq]
      exact ⟨h1, h2, h3, h4⟩
    rw [hv]
  · intro v1 v2 h1 h2 h3 h4
    have hv : v1 = v2 := by
      cases v1
      cases v2
      simp only [SeededRlweCiphertext.mk.injEq]
      exact ⟨h1, h2, h3, h4⟩
    rw [hv]
  · intro v1 v2 h1 h2 h3 h4 h5
    have hv : v1 = v2 := by
      cases v1
      cases v2
      simp only [SeededSinglePartyServerKey.mk.injEq]
      exact ⟨h1, h2, h3, h4, h5⟩
    rw [hv]

/-- Layout of the expanded LWE-KSK: one output row per stored b element,
the b element in column 0, the freshly drawn values in later columns. -/
lemma expandLweKsk_layout {σ : Type} (fill : σ → Nat → Nat → Poly × σ) (q n : Nat) :
    ∀ (bs : List Nat) (st : σ),
      (expandLweKsk fill q n bs st).1.length = bs.length ∧
      ∀ r, r < bs.length →
        ∃ st2, (expandLweKsk fill q n bs st).1.getD r zPoly
          = fun c => if c = 0 then bs.getD r 0 else (fill st2 q n).1 (c - 1) := by
  intro bs
  induction bs with
  | nil =>
    intro st
    exact ⟨rfl, fun r hr => absurd hr (Nat.not_lt_zero r)⟩
  | cons b t ih =>
    intro st
    constructor
    · simp [expandLweKsk, (ih (fill st q n).2).1]
    · intro r hr
      cases r with
      | zero =>
        refine ⟨st, ?_⟩
        simp [expandLweKsk]
      | succ r2 =>
        obtain ⟨st2, hst2⟩ := (ih (fill st q n).2).2 r2 (by simpa using hr)
        refine ⟨st2, ?_⟩
        simp only [expandLweKsk, List.getD_cons_succ]
        exact hst2

/-- Claim C8, amended: the expanded LWE key-switch key has
`lwe_decomposition_count · rlwe_n` rows - one per stored b element - not
`lwe_n · d`; each row holds the stored b element in column 0 and
CSPRNG-drawn values in the columns after it. -/
theorem lwe_ksk_expansion_layout {S σ : Type} (newWithSeed : S → σ)
    (fill : σ → Nat → Nat → Poly × σ) (fwd : Poly → Poly)
    (v : SeededSinglePartyServerKey S) (out : ServerKeyEvaluationDomain)
    (hout : expandSeededSinglePartyServerKey newWithSeed fill fwd v = some out) :
    out.lwe_ksk.length
        = v.parameters.lwe_decomposition_count * v.parameters.rlwe_n ∧
    ∀ r, r < out.lwe_ksk.length →
      out.lwe_ksk.getD r zPoly 0 = v.lwe_ksk.getD r 0 ∧
      ∃ st2, ∀ c, 1 ≤ c →
        out.lwe_ksk.getD r zPoly c
          = (fill st2 v.parameters.lwe_q v.parameters.lwe_n).1 (c - 1) := by
  simp only [expandSeededSinglePartyServerKey] at hout
  cases hA : expandAutoKeys fill fwd v.parameters.rlwe_q v.parameters.rlwe_n
      v.parameters.auto_decomposition_count v.auto_keys v.parameters.auto_element_dlogs
      (newWithSeed v.seed) with
  | none =>
    rw [hA] at hout
    simp at hout
  | some autos =>
    rw [hA] at hout
    dsimp only at hout
    cases hB : expandRgswCts fill fwd v.parameters.rlwe_q v.parameters.rlwe_n
        v.parameters.rlwe_rgsw_decomposition_count.1
        v.parameters.rlwe_rgsw_decomposition_count.2 v.rgsw_cts autos.2 with
    | none =>
      rw [hB] at hout
      simp at hout
    | some rgsws =>
      rw [hB] at hout
      dsimp only at hout
      by_cases hlen : v.lwe_ksk.length
          = v.parameters.lwe_decomposition_count * v.parameters.rlwe_n
      · rw [if_pos hlen] at hout
        rw [Option.some_inj] at hout
        subst hout
        have hlay := expandLweKsk_layout fill v.parameters.lwe_q v.parameters.lwe_n
          v.lwe_ksk rgsws.2
        constructor
        · rw [hlay.1] at *
          exact hlen
        · intro r hr
          have hrb : r < v.lwe_ksk.length := by
            have := hlay.1
            simp only [ServerKeyEvaluationDomain.lwe_ksk] at hr
            omega
          obtain ⟨st2, hrow⟩ := hlay.2 r hrb
          constructor
          · simp only [ServerKeyEvaluationDomain.lwe_ksk]
            rw [hrow]
            simp
          · refine ⟨st2, ?_⟩
            intro c hc
            simp only [ServerKeyEvaluationDomain.lwe_ksk]
            rw [hrow]
            simp [show ¬c = 0 by omega]
      · rw [if_neg hlen] at hout
        simp at hout

/-- Claim C9: the ui→s KSK block of the non-interactive expansion is
broken.  With a single user (`key order = [0]`) the loop runs over
`0..max(order) = 0..0` and produces no key at all for that user, and with
two or more users the dimension assertion - which compares the freshly
built `2d`-row matrix against `d` rows - always fails, aborting the
expansion. -/
theorem ui_to_s_ksks_expansion_bug :
    expandUiToSKsks c8NewSeed c8Fill id c9UiSeed 7 2 1 [[zPoly]] [0] = some [] ∧
    expandUiToSKsks c8NewSeed c8Fill id c9UiSeed 7 2 1 [[zPoly], [zPoly]] [0, 1]
      = none := by
  constructor
  · rfl
  · rfl

/-- Witness for claim C1 at a concrete input. -/
theorem rlwe_by_rgsw_matches_spec_witness :
    cG.length = 4 * 1 ∧
    rlwe_by_rgsw 5 1 cDec id id cG cCt = rlweByRgswSpec 5 1 cDec id id cG cCt :=
  ⟨rfl, rlwe_by_rgsw_matches_spec 5 1 cDec id id cG cCt rfl⟩

/-- Witness for claim C2 at a concrete input. -/
theorem rgsw_by_rgsw_inplace_matches_external_products_witness :
    cG.length = 4 * 1 ∧
    rgsw_by_rgsw_inplace 5 1 cDec id id cG cG
      = some (rgswByExternalProducts 5 1 cDec id id cG cG) :=
  ⟨rfl, rgsw_by_rgsw_inplace_matches_external_products 5 1 cDec id id cG cG rfl rfl⟩

/-- Witness for claim C3 at `N = 4`, `k = -5`. -/
theorem generate_auto_map_spec_witness :
    ∃ idx sgn, generate_auto_map (2 ^ 2) (-5) = some (idx, sgn) ∧
      idx.length = 2 ^ 2 ∧ sgn.length = 2 ^ 2 ∧
      ∀ i, i < 2 ^ 2 →
        idx.getD i 0
          = i * ((-5 : Int) % ((2 * 2 ^ 2 : Nat) : Int)).toNat % (2 * 2 ^ 2) % 2 ^ 2 ∧
        (sgn.getD i true = false ↔
          2 ^ 2 ≤ i * ((-5 : Int) % ((2 * 2 ^ 2 : Nat) : Int)).toNat % (2 * 2 ^ 2)) :=
  (generate_auto_map_spec 2 (-5)).1 (by decide)

/-- Witness for claim C4 at a concrete trivial ciphertext. -/
theorem galois_auto_trivial_frame_witness :
    cCtT.is_trivial = true ∧
    ((galois_auto 5 1 2 cDec id id [] cScr cIdx cSgn cCtT).a = cCtT.a ∧
     (galois_auto 5 1 2 cDec id id [] cScr cIdx cSgn cCtT).is_trivial
        = cCtT.is_trivial ∧
     (∀ i, i < 2 → (galois_auto 5 1 2 cDec id id [] cScr cIdx cSgn cCtT).b (cIdx i)
        = (if cSgn i then cCtT.b i else negMod 5 (cCtT.b i))) ∧
     (∀ (dec2 : Nat → List Nat) (fwd2 bwd2 : Poly → Poly) (ksk2 : List Poly),
        galois_auto 5 1 2 dec2 fwd2 bwd2 ksk2 cScr cIdx cSgn cCtT
          = galois_auto 5 1 2 cDec id id [] cScr cIdx cSgn cCtT)) :=
  ⟨rfl, galois_auto_trivial_frame 5 1 2 cDec id id [] cScr cIdx cSgn cCtT rfl
    (fun _ _ _ _ hij => hij)⟩

/-- Witness for claim C5: a non-trivial ciphertext keeps a false flag
through an automorphism. -/
theorem is_trivial_never_returns_witness :
    (([CtOp.auto 5 1 2 cDec id id [] cScr cIdx cSgn].foldl
        (fun c op => applyCtOp op c) ⟨zPoly, zPoly, false⟩) : RlweCt).is_trivial
      = false :=
  (is_trivial_never_returns [CtOp.auto 5 1 2 cDec id id [] cScr cIdx cSgn]
    ⟨zPoly, zPoly, false⟩).1 rfl

/-- Witness for claim C6: a singleton (hence consistent) share list
aggregates to the stated key. -/
theorem publicKeyFromShares_spec_witness :
    publicKeyFromShares cCrsA [c6Share]
      = some (cCrsA c6Share.cr_seed c6Share.parameters.rlwe_q,
          fun i => (([c6Share].map (fun si => si.share i)).sum)
            % c6Share.parameters.rlwe_q) :=
  (publicKeyFromShares_spec cCrsA c6Share []).2 (by simp)

/-- Witness for claim C7 at concrete seeded keys. -/
theorem seeded_expansion_deterministic_witness :
    expandSeededRgswCiphertext c8NewSeed c8Fill id c7Rgsw
      = expandSeededRgswCiphertext c8NewSeed c8Fill id c7Rgsw ∧
    expandSeededAutoKey c8NewSeed c8Fill id c7Auto
      = expandSeededAutoKey c8NewSeed c8Fill id c7Auto ∧
    expandSeededRlweCiphertext c8NewSeed c8Fill c7Rlwe
      = expandSeededRlweCiphertext c8NewSeed c8Fill c7Rlwe ∧
    expandSeededSinglePartyServerKey c8NewSeed c8Fill id c8Key
      = expandSeededSinglePartyServerKey c8NewSeed c8Fill id c8Key :=
  ⟨(seeded_expansion_deterministic c8NewSeed c8Fill id).1 c7Rgsw c7Rgsw rfl rfl rfl rfl,
   (seeded_expansion_deterministic c8NewSeed c8Fill id).2.1 c7Auto c7Auto rfl rfl rfl rfl,
   (seeded_expansion_deterministic c8NewSeed c8Fill id).2.2.1 c7Rlwe c7Rlwe rfl rfl rfl rfl,
   (seeded_expansion_deterministic c8NewSeed c8Fill id).2.2.2 c8Key c8Key rfl rfl rfl rfl rfl⟩

/-- Claim C8 counterexample: at a concrete parameter set with `rlwe_n = 2`,
`lwe_n = 1`, `d = 1`, the expanded LWE-KSK has `d · rlwe_n = 2` rows, not
`n_lwe · d = 1` as the claim states. -/
theorem lwe_ksk_row_count_counterexample :
    (expandSeededSinglePartyServerKey c8NewSeed c8Fill id c8Key).map
        (fun sk => sk.lwe_ksk.length) = some 2 ∧
    c8Key.parameters.lwe_n * c8Key.parameters.lwe_decomposition_count = 1 ∧
    (2 : Nat) ≠ 1 :=
  ⟨rfl, rfl, by decide⟩

/-- Witness for the amended claim C8 at the concrete key. -/
theorem lwe_ksk_expansion_layout_witness :
    expandSeededSinglePartyServerKey c8NewSeed c8Fill id c8Key = some c8Out ∧
    (c8Out.lwe_ksk.length
        = c8Key.parameters.lwe_decomposition_count * c8Key.parameters.rlwe_n ∧
     ∀ r, r < c8Out.lwe_ksk.length →
       c8Out.lwe_ksk.getD r zPoly 0 = c8Key.lwe_ksk.getD r 0 ∧
       ∃ st2, ∀ c, 1 ≤ c →
         c8Out.lwe_ksk.getD r zPoly c
           = (c8Fill st2 c8Key.parameters.lwe_q c8Key.parameters.lwe_n).1 (c - 1)) :=
  ⟨rfl, lwe_ksk_expansion_layout c8NewSeed c8Fill id c8Key c8Out rfl⟩

end PZ

